import Mathlib

/-!
Verification of the Bangun cost-estimation system: a shallow embedding of
the job pipeline, price-resolution engine, API client, webhook verifier,
materials dedup migration and frontend checklist hook, with proofs of the
documented invariants.
-/

/-! ## API client (frontend/lib/api/client.ts) -/

namespace ApiClientM

/-- Minimal JSON value model for response bodies. -/
inductive Json where
  | null
  | str (s : String)
  | num (n : Int)
  | obj (fields : List (String × Json))

/-- Field lookup on a JSON object, as JavaScript property access. -/
def Json.getField (j : Json) (k : String) : Option Json :=
  match j with
  | .obj fields => (fields.find? (fun f => f.1 = k)).map (·.2)
  | _ => none

/-- JavaScript truthy string extraction: a field is used as an error
message only when it is a non-empty string. -/
def Json.truthyStr (j : Json) (k : String) : Option String :=
  match j.getField k with
  | some (.str s) => if s = "" then none else some s
  | _ => none

/-- Outcome of one fetch call: either the promise rejects (network error)
or a response arrives, whose body either parses as JSON or throws. -/
structure HttpResponse where
  ok : Bool
  status : Nat
  statusText : String
  contentTypeJson : Bool
  body : Except String Json

inductive FetchOutcome where
  | thrown (msg : String)
  | response (r : HttpResponse)

structure ApiError where
  message : String
  code : String

/-- The TS ApiResponse shape: optional data field and optional error field. -/
structure ApiResponse where
  dataField : Option Json
  errorField : Option ApiError

/-- Message of the non-ok JSON branch: data.detail, else data.message,
else the HTTP status string. -/
def errMessage (data : Json) (status : Nat) : String :=
  match data.truthyStr "detail" with
  | some s => s
  | none =>
    match data.truthyStr "message" with
    | some s => s
    | none => "HTTP " ++ toString status

/-- Code of the non-ok JSON branch: data.code, else HTTP_status. -/
def errCode (data : Json) (status : Nat) : String :=
  match data.truthyStr "code" with
  | some s => s
  | none => "HTTP_" ++ toString status

/-- ApiClient.request from client.ts: the try block fetches, handles a
non-JSON content type, parses JSON, and maps non-ok responses to an error
object; the catch block maps any thrown error to code NETWORK_ERROR. -/
def request (o : FetchOutcome) : ApiResponse :=
  match o with
  | .thrown msg => { dataField := none, errorField := some { message := msg, code := "NETWORK_ERROR" } }
  | .response r =>
    if r.contentTypeJson then
      match r.body with
      | .error msg =>
        { dataField := none, errorField := some { message := msg, code := "NETWORK_ERROR" } }
      | .ok data =>
        if r.ok then { dataField := some data, errorField := none }
        else { dataField := none, errorField := some { message := errMessage data r.status, code := errCode data r.status } }
    else
      if r.ok then { dataField := some (Json.obj []), errorField := none }
      else
        { dataField := none
          errorField := some { message := "HTTP " ++ toString r.status ++ ": " ++ r.statusText, code := "NETWORK_ERROR" } }

/-- C9: the API client request method is total over all response shapes:
it always resolves to an ApiResponse holding exactly one of a data field
or an error field; a thrown fetch or parse error yields code
NETWORK_ERROR with the thrown message, and a successful non-JSON response
yields an empty data object. -/
theorem request_total_and_error_mapping :
    (∀ o : FetchOutcome, (request o).dataField.isSome ↔ (request o).errorField = none) ∧
    (∀ msg, request (.thrown msg) =
      { dataField := none, errorField := some { message := msg, code := "NETWORK_ERROR" } }) ∧
    (∀ st stx body, request (.response ⟨true, st, stx, false, body⟩) =
      { dataField := some (Json.obj []), errorField := none }) ∧
    (∀ st stx ctj msg, request (.response ⟨false, st, stx, ctj, .error msg⟩) =
      { dataField := none
        errorField := some
          { message := if ctj then msg else "HTTP " ++ toString st ++ ": " ++ stx
            code := "NETWORK_ERROR" } }) := by
  refine ⟨?_, fun msg => rfl, fun st stx body => rfl, ?_⟩
  · intro o
    rcases o with msg | ⟨ok, st, stx, ctj, body⟩
    · simp [request]
    · cases ctj <;> cases ok <;> rcases body with msg | data <;> simp [request]
  · intro st stx ctj msg
    cases ctj <;> simp [request]

end ApiClientM

/-! ## Materials dedup migration (004_add_materials_unique_constraint.sql) -/

namespace DedupM

/-- Row of the materials table, restricted to the columns the dedup
DELETE statement reads. -/
structure MaterialRow where
  id : Nat
  name_id : String
  price_updated_at : Option Nat
deriving DecidableEq, Repr

/-- The row-pair preference of the DELETE statement: m2 beats m1 when m2
has a strictly more recent price_updated_at, or m2 has one and m1 does
not, or the timestamps are not distinct and m2 has the smaller id. -/
def beats (m2 m1 : MaterialRow) : Bool :=
  (match m2.price_updated_at, m1.price_updated_at with
   | some x, some y => decide (y < x)
   | _, _ => false)
  || (m2.price_updated_at.isSome && m1.price_updated_at.isNone)
  || (m2.price_updated_at == m1.price_updated_at && decide (m2.id < m1.id))

/-- The LOWER(name_id) grouping of the migration. -/
def sameGroup (a b : MaterialRow) : Bool := a.name_id.toLower == b.name_id.toLower

/-- Delete condition of the migration: some same-group row with a
different id beats this row, and no affiliate_clicks row references it. -/
def shouldDelete (rows : List MaterialRow) (clicks : List Nat) (m1 : MaterialRow) : Bool :=
  (rows.any fun m2 => sameGroup m1 m2 && m1.id != m2.id && beats m2 m1)
  && !(clicks.any fun c => c == m1.id)

/-- The dedup pass: the table after running the DELETE statement against
the original snapshot of materials and affiliate_clicks. -/
def dedupPass (rows : List MaterialRow) (clicks : List Nat) : List MaterialRow :=
  rows.filter (fun m1 => !(shouldDelete rows clicks m1))

/-- The beats relation is total on rows with distinct ids. -/
theorem beats_total (a b : MaterialRow) (h : a.id ≠ b.id) :
    beats a b = true ∨ beats b a = true := by
  rcases ha : a.price_updated_at with _ | x <;> rcases hb : b.price_updated_at with _ | y
  · rcases Nat.lt_or_ge a.id b.id with hid | hid
    · left; simp [beats, ha, hb, hid]
    · right
      have : b.id < a.id := Nat.lt_of_le_of_ne hid (fun hh => h hh.symm)
      simp [beats, ha, hb, this]
  · right; simp [beats, ha, hb]
  · left; simp [beats, ha, hb]
  · rcases Nat.lt_trichotomy x y with hxy | hxy | hxy
    · right; simp [beats, ha, hb, hxy]
    · subst hxy
      rcases Nat.lt_or_ge a.id b.id with hid | hid
      · left; simp [beats, ha, hb, hid]
      · right
        have : b.id < a.id := Nat.lt_of_le_of_ne hid (fun hh => h hh.symm)
        simp [beats, ha, hb, this]
    · left; simp [beats, ha, hb, hxy]

/-- C8: the dedup pass never deletes a materials row referenced by an
affiliate_clicks row, and any unreferenced row the pass retains beats
every other row of its case-variant duplicate group, so it is the one
with the most recent price_updated_at, ties broken by smallest id. -/
theorem dedup_preserves_referenced_and_retains_best
    (rows : List MaterialRow) (clicks : List Nat) (m : MaterialRow) (hm : m ∈ rows) :
    (m.id ∈ clicks → m ∈ dedupPass rows clicks) ∧
    (m.id ∉ clicks → m ∈ dedupPass rows clicks →
      ∀ m2 ∈ rows, sameGroup m m2 = true → m2.id ≠ m.id → beats m m2 = true) := by
  constructor
  · intro hc
    have hB : (clicks.any fun c => c == m.id) = true := by
      rw [List.any_eq_true]
      exact ⟨m.id, hc, by simp⟩
    simp [dedupPass, List.mem_filter, shouldDelete, hB, hm]
  · intro hc hmem m2 hm2 hg hid
    have hkeep := (List.mem_filter.mp hmem).2
    have hB : (clicks.any fun c => c == m.id) = false := by
      rw [List.any_eq_false]
      intro c hcmem
      simp only [beq_iff_eq]
      intro he
      exact hc (he ▸ hcmem)
    have hidne : m.id ≠ m2.id := fun he => hid he.symm
    rcases beats_total m m2 hidne with hb | hb
    · exact hb
    · exfalso
      have hA : (rows.any fun x => sameGroup m x && m.id != x.id && beats x m) = true := by
        rw [List.any_eq_true]
        exact ⟨m2, hm2, by simp [hg, hb, bne_iff_ne, hidne]⟩
      simp [shouldDelete, hA, hB] at hkeep

/-- Witness for C8 at a concrete two-row group with one referenced row. -/
theorem dedup_preserves_referenced_witness :
    (⟨1, "Semen", some 5⟩ : MaterialRow) ∈
      dedupPass [⟨1, "Semen", some 5⟩, ⟨2, "semen", some 9⟩] [1] :=
  (dedup_preserves_referenced_and_retains_best
    [⟨1, "Semen", some 5⟩, ⟨2, "semen", some 9⟩] [1] ⟨1, "Semen", some 5⟩
    (by decide)).1 (by decide)

end DedupM

/-! ## Name canonicalizer (spec section 4.1) -/

namespace CanonM

def isLowerAlpha (c : Char) : Bool := decide (97 ≤ c.toNat) && decide (c.toNat ≤ 122)

def isUpperAlpha (c : Char) : Bool := decide (65 ≤ c.toNat) && decide (c.toNat ≤ 90)

def isDigitCh (c : Char) : Bool := decide (48 ≤ c.toNat) && decide (c.toNat ≤ 57)

/-- ASCII lowercasing of one character. -/
def lowerChar (c : Char) : Char :=
  if isUpperAlpha c then Char.ofNat (c.toNat + 32) else c

/-- Strip punctuation: keep only alphanumerics and spaces. -/
def keepChar (c : Char) : Bool := isLowerAlpha c || isDigitCh c || c == ' '

def pushTok (cur : List Char) (r : List (List Char)) : List (List Char) :=
  if cur = [] then r else cur.reverse :: r

/-- Whitespace split, accumulating the current token reversed. -/
def splitAux : List Char → List Char → List (List Char)
  | [], cur => pushTok cur []
  | c :: rest, cur =>
    if c = ' ' then pushTok cur (splitAux rest []) else splitAux rest (c :: cur)

def words (l : List Char) : List (List Char) := splitAux l []

/-- Join tokens with single spaces. -/
def unwords : List (List Char) → List Char
  | [] => []
  | [t] => t
  | t :: ts => t ++ ' ' :: unwords ts

def isNumTok (t : List Char) : Bool := !t.isEmpty && t.all isDigitCh

/-- Unit tokens a bare number is glued to, the kg of the spec example
plus common construction units. -/
def unitToks : List (List Char) :=
  [['k', 'g'], ['g'], ['m'], ['m', '2'], ['m', '3'], ['c', 'm'], ['m', 'm'],
   ['l'], ['m', 'l'], ['p', 'c', 's'], ['s', 'a', 'k']]

def isUnitTok (t : List Char) : Bool := unitToks.contains t

/-- Merge a bare-number token with an immediately following unit token. -/
def mergeNumUnit : List (List Char) → List (List Char)
  | [] => []
  | [t] => [t]
  | a :: b :: rest =>
    if isNumTok a && isUnitTok b then (a ++ b) :: mergeNumUnit rest
    else a :: mergeNumUnit (b :: rest)

/-- Lexicographic comparison of tokens by character code. -/
def lexLe : List Char → List Char → Bool
  | [], _ => true
  | _ :: _, [] => false
  | a :: s, b :: t => if a = b then lexLe s t else decide (a < b)

def insertTok (x : List Char) : List (List Char) → List (List Char)
  | [] => [x]
  | y :: ys => if lexLe x y then x :: y :: ys else y :: insertTok x ys

/-- Insertion sort of the token list under lexLe. -/
def sortToks : List (List Char) → List (List Char)
  | [] => []
  | x :: xs => insertTok x (sortToks xs)

/-- Token pipeline of the canonicalizer: lowercase, strip punctuation,
split on whitespace, merge number-unit pairs, sort lexicographically. -/
def canonTokens (l : List Char) : List (List Char) :=
  sortToks (mergeNumUnit (words ((l.map lowerChar).filter keepChar)))

def canonList (l : List Char) : List Char := unwords (canonTokens l)

/-- Modelled from the spec: the backend name canonicalizer behind the
materials.normalized_name column is not among the sources (only the SQL
comment describing it is), so canonicalize is modelled from spec section
4.1: lowercase, strip punctuation except alphanumerics and spaces, split
on whitespace, merge a bare number with an immediately following unit
token, sort tokens lexicographically, join with single spaces. -/
def canonicalize (s : String) : String := String.mk (canonList s.toList)

theorem charToNat_ofNat_of_lt (n : Nat) (h : n < 55296) : (Char.ofNat n).toNat = n := by
  unfold Char.ofNat
  rw [dif_pos (Or.inl h)]
  unfold Char.ofNatAux Char.toNat
  simp [UInt32.toNat]

theorem lowerChar_idem (c : Char) : lowerChar (lowerChar c) = lowerChar c := by
  by_cases h : isUpperAlpha c = true
  · have hb : 65 ≤ c.toNat ∧ c.toNat ≤ 90 := by
      simpa [isUpperAlpha, Bool.and_eq_true, decide_eq_true_eq] using h
    have ht : (Char.ofNat (c.toNat + 32)).toNat = c.toNat + 32 :=
      charToNat_ofNat_of_lt _ (by omega)
    have h2 : isUpperAlpha (Char.ofNat (c.toNat + 32)) = false := by
      simp only [isUpperAlpha, ht, Bool.and_eq_false_iff, decide_eq_false_iff_not]
      omega
    simp [lowerChar, h, h2]
  · have h2 : isUpperAlpha c = false := Bool.not_eq_true _ ▸ (by simpa using h)
    simp [lowerChar, h2]

theorem mem_pushTok {cur : List Char} {r : List (List Char)} {t : List Char}
    (ht : t ∈ pushTok cur r) : (cur ≠ [] ∧ t = cur.reverse) ∨ t ∈ r := by
  unfold pushTok at ht
  by_cases hc : cur = []
  · rw [if_pos hc] at ht
    exact Or.inr ht
  · rw [if_neg hc] at ht
    rcases List.mem_cons.mp ht with h | h
    · exact Or.inl ⟨hc, h⟩
    · exact Or.inr h

theorem mem_splitAux_ne_nil : ∀ (l cur : List Char) (t : List Char),
    t ∈ splitAux l cur → t ≠ []
  | [], cur, t => fun ht => by
    rcases mem_pushTok (by simpa [splitAux] using ht) with ⟨hc, he⟩ | hmem
    · subst he
      simpa using hc
    · simp at hmem
  | c :: rest, cur, t => fun ht => by
    by_cases hsp : c = ' '
    · simp only [splitAux, if_pos hsp] at ht
      rcases mem_pushTok ht with ⟨hc, he⟩ | hmem
      · subst he
        simpa using hc
      · exact mem_splitAux_ne_nil rest [] t hmem
    · simp only [splitAux, if_neg hsp] at ht
      exact mem_splitAux_ne_nil rest (c :: cur) t ht

theorem mem_splitAux_no_space : ∀ (l cur : List Char), (∀ c ∈ cur, c ≠ ' ') →
    ∀ t ∈ splitAux l cur, ∀ c ∈ t, c ≠ ' '
  | [], cur => fun hcur t ht => by
    rcases mem_pushTok (by simpa [splitAux] using ht) with ⟨hc, he⟩ | hmem
    · subst he
      intro c hcmem
      exact hcur c (List.mem_reverse.mp hcmem)
    · simp at hmem
  | c0 :: rest, cur => fun hcur t ht => by
    by_cases hsp : c0 = ' '
    · simp only [splitAux, if_pos hsp] at ht
      rcases mem_pushTok ht with ⟨hc, he⟩ | hmem
      · subst he
        intro c hcmem
        exact hcur c (List.mem_reverse.mp hcmem)
      · exact mem_splitAux_no_space rest [] (by simp) t hmem
    · simp only [splitAux, if_neg hsp] at ht
      refine mem_splitAux_no_space rest (c0 :: cur) ?_ t ht
      intro c hcmem
      rcases List.mem_cons.mp hcmem with he | hmem2
      · exact he ▸ hsp
      · exact hcur c hmem2

theorem mem_splitAux_chars : ∀ (l cur : List Char) (t : List Char),
    t ∈ splitAux l cur → ∀ c ∈ t, c ∈ l ∨ c ∈ cur
  | [], cur, t => fun ht c hc => by
    rcases mem_pushTok (by simpa [splitAux] using ht) with ⟨hne, he⟩ | hmem
    · subst he
      exact Or.inr (List.mem_reverse.mp hc)
    · simp at hmem
  | c0 :: rest, cur, t => fun ht c hc => by
    by_cases hsp : c0 = ' '
    · simp only [splitAux, if_pos hsp] at ht
      rcases mem_pushTok ht with ⟨hne, he⟩ | hmem
      · subst he
        exact Or.inr (List.mem_reverse.mp hc)
      · rcases mem_splitAux_chars rest [] t hmem c hc with hin | hin
        · exact Or.inl (List.mem_cons_of_mem c0 hin)
        · simp at hin
    · simp only [splitAux, if_neg hsp] at ht
      rcases mem_splitAux_chars rest (c0 :: cur) t ht c hc with hin | hin
      · exact Or.inl (List.mem_cons_of_mem c0 hin)
      · rcases List.mem_cons.mp hin with he | hin2
        · exact Or.inl (he ▸ List.mem_cons_self c0 rest)
        · exact Or.inr hin2

theorem splitAux_consume_token : ∀ (t : List Char), (∀ c ∈ t, c ≠ ' ') →
    ∀ (l cur : List Char), splitAux (t ++ l) cur = splitAux l (t.reverse ++ cur)
  | [], _ => fun l cur => by simp
  | c :: t', h => fun l cur => by
    have hc : c ≠ ' ' := h c (List.mem_cons_self c t')
    have ih := splitAux_consume_token t' (fun x hx => h x (List.mem_cons_of_mem c hx)) l (c :: cur)
    simp only [List.cons_append, splitAux, if_neg hc, List.append_eq]
    rw [ih]
    simp [List.append_assoc]

theorem words_unwords : ∀ (ts : List (List Char)),
    (∀ t ∈ ts, t ≠ [] ∧ (∀ c ∈ t, c ≠ ' ')) → words (unwords ts) = ts
  | [] => fun _ => rfl
  | [t] => fun h => by
    obtain ⟨hne, hsp⟩ := h t (List.mem_cons_self t [])
    show splitAux (unwords [t]) [] = [t]
    rw [show unwords [t] = t from rfl, show t = t ++ ([] : List Char) from by simp]
    rw [splitAux_consume_token t hsp [] []]
    simp [splitAux, pushTok, hne]
  | t :: t2 :: rest => fun h => by
    obtain ⟨hne, hsp⟩ := h t (List.mem_cons_self t (t2 :: rest))
    have ih := words_unwords (t2 :: rest) (fun x hx => h x (List.mem_cons_of_mem t hx))
    show splitAux (t ++ ' ' :: unwords (t2 :: rest)) [] = t :: t2 :: rest
    rw [splitAux_consume_token t hsp]
    simp only [splitAux, if_pos rfl, List.append_nil]
    rw [show pushTok t.reverse (splitAux (unwords (t2 :: rest)) [])
        = t.reverse.reverse :: splitAux (unwords (t2 :: rest)) [] from by
      simp [pushTok, hne]]
    rw [List.reverse_reverse]
    exact congrArg (t :: ·) ih

theorem mem_unwords : ∀ (ts : List (List Char)) (c : Char),
    c ∈ unwords ts → c = ' ' ∨ ∃ t ∈ ts, c ∈ t
  | [], c => by simp [unwords]
  | [t], c => fun hc =>
    Or.inr ⟨t, List.mem_cons_self t [], by simpa [unwords] using hc⟩
  | t :: t2 :: rest, c => fun hc => by
    rw [show unwords (t :: t2 :: rest) = t ++ ' ' :: unwords (t2 :: rest) from rfl] at hc
    rcases List.mem_append.mp hc with h | h
    · exact Or.inr ⟨t, List.mem_cons_self t (t2 :: rest), h⟩
    · rcases List.mem_cons.mp h with h | h
      · exact Or.inl h
      · rcases mem_unwords (t2 :: rest) c h with h | ⟨u, hu, hcu⟩
        · exact Or.inl h
        · exact Or.inr ⟨u, List.mem_cons_of_mem t hu, hcu⟩

theorem mergeNumUnit_pred (P : List Char → Prop)
    (hP : ∀ a b : List Char, P a → P b → P (a ++ b)) :
    ∀ ts : List (List Char), (∀ t ∈ ts, P t) → ∀ t ∈ mergeNumUnit ts, P t
  | [] => fun _ t ht => by simp [mergeNumUnit] at ht
  | [a] => fun h t ht => by
    simp only [mergeNumUnit] at ht
    rcases List.mem_cons.mp ht with he | hmem
    · exact he ▸ h a (List.mem_cons_self a [])
    · simp at hmem
  | a :: b :: rest => fun h t ht => by
    by_cases hm : (isNumTok a && isUnitTok b) = true
    · simp only [mergeNumUnit, if_pos hm] at ht
      rcases List.mem_cons.mp ht with he | hmem
      · exact he ▸ hP a b (h a (List.mem_cons_self a (b :: rest)))
          (h b (List.mem_cons_of_mem a (List.mem_cons_self b rest)))
      · exact mergeNumUnit_pred P hP rest
          (fun x hx => h x (List.mem_cons_of_mem a (List.mem_cons_of_mem b hx))) t hmem
    · simp only [mergeNumUnit, if_neg hm] at ht
      rcases List.mem_cons.mp ht with he | hmem
      · exact he ▸ h a (List.mem_cons_self a (b :: rest))
      · exact mergeNumUnit_pred P hP (b :: rest)
          (fun x hx => h x (List.mem_cons_of_mem a hx)) t hmem

theorem lexLe_total : ∀ x y : List Char, lexLe x y = true ∨ lexLe y x = true
  | [], _ => Or.inl rfl
  | _ :: _, [] => Or.inr rfl
  | a :: s, b :: t => by
    by_cases hab : a = b
    · subst hab
      rcases lexLe_total s t with h | h
      · exact Or.inl (by simpa [lexLe] using h)
      · exact Or.inr (by simpa [lexLe] using h)
    · rcases lt_trichotomy a b with h | h | h
      · exact Or.inl (by simp [lexLe, hab, h])
      · exact absurd h hab
      · have hba : b ≠ a := fun he => hab he.symm
        exact Or.inr (by simp [lexLe, hba, h])

/-- Sortedness of a token list under lexLe. -/
def SortedToks : List (List Char) → Prop
  | [] => True
  | [_] => True
  | x :: y :: r => lexLe x y = true ∧ SortedToks (y :: r)

theorem insertTok_sorted (x : List Char) : ∀ l : List (List Char),
    SortedToks l → SortedToks (insertTok x l)
  | [] => fun _ => trivial
  | y :: ys => fun h => by
    by_cases hxy : lexLe x y = true
    · rw [show insertTok x (y :: ys) = x :: y :: ys from by simp [insertTok, hxy]]
      exact ⟨hxy, h⟩
    · rw [show insertTok x (y :: ys) = y :: insertTok x ys from by simp [insertTok, hxy]]
      have hyx : lexLe y x = true := (lexLe_total x y).resolve_left hxy
      cases ys with
      | nil => exact ⟨hyx, trivial⟩
      | cons z zs =>
        obtain ⟨hyz, hzs⟩ := h
        have ihs := insertTok_sorted x (z :: zs) hzs
        by_cases hxz : lexLe x z = true
        · rw [show insertTok x (z :: zs) = x :: z :: zs from by simp [insertTok, hxz]]
          exact ⟨hyx, hxz, hzs⟩
        · rw [show insertTok x (z :: zs) = z :: insertTok x zs from by simp [insertTok, hxz]]
          rw [show insertTok x (z :: zs) = z :: insertTok x zs from by
            simp [insertTok, hxz]] at ihs
          exact ⟨hyz, ihs⟩

theorem sortToks_sorted : ∀ l : List (List Char), SortedToks (sortToks l)
  | [] => trivial
  | x :: xs => insertTok_sorted x (sortToks xs) (sortToks_sorted xs)

theorem sortToks_eq_of_sorted : ∀ l : List (List Char), SortedToks l → sortToks l = l
  | [] => fun _ => rfl
  | [_] => fun _ => rfl
  | x :: y :: r => fun h => by
    obtain ⟨hxy, hr⟩ := h
    have ih := sortToks_eq_of_sorted (y :: r) hr
    show insertTok x (sortToks (y :: r)) = x :: y :: r
    rw [ih]
    simp [insertTok, hxy]

theorem mem_insertTok : ∀ (x : List Char) (l : List (List Char)) (t : List Char),
    t ∈ insertTok x l → t = x ∨ t ∈ l
  | x, [], t => fun ht => by
    simp only [insertTok] at ht
    rcases List.mem_cons.mp ht with he | hmem
    · exact Or.inl he
    · simp at hmem
  | x, y :: ys, t => fun ht => by
    by_cases hxy : lexLe x y = true
    · simp only [insertTok, if_pos hxy] at ht
      rcases List.mem_cons.mp ht with he | hmem
      · exact Or.inl he
      · exact Or.inr hmem
    · simp only [insertTok, if_neg hxy] at ht
      rcases List.mem_cons.mp ht with he | hmem
      · exact Or.inr (he ▸ List.mem_cons_self y ys)
      · rcases mem_insertTok x ys t hmem with he | hmem2
        · exact Or.inl he
        · exact Or.inr (List.mem_cons_of_mem y hmem2)

theorem mem_sortToks : ∀ (l : List (List Char)) (t : List Char), t ∈ sortToks l → t ∈ l
  | [], t => fun ht => by simp [sortToks] at ht
  | x :: xs, t => fun ht => by
    rcases mem_insertTok x (sortToks xs) t (by simpa [sortToks] using ht) with he | hmem
    · exact he ▸ List.mem_cons_self x xs
    · exact List.mem_cons_of_mem x (mem_sortToks xs t hmem)

/-- Well-formed canonical token: nonempty, space-free, and made of
characters fixed by lowercasing that survive punctuation stripping. -/
def GoodTok (t : List Char) : Prop :=
  t ≠ [] ∧ (∀ c ∈ t, c ≠ ' ') ∧ (∀ c ∈ t, lowerChar c = c ∧ keepChar c = true)

theorem goodTok_append {a b : List Char} (ha : GoodTok a) (hb : GoodTok b) :
    GoodTok (a ++ b) := by
  obtain ⟨ha1, ha2, ha3⟩ := ha
  obtain ⟨hb1, hb2, hb3⟩ := hb
  refine ⟨?_, ?_, ?_⟩
  · intro he
    exact ha1 (List.append_eq_nil.mp he).1
  · intro c hc
    rcases List.mem_append.mp hc with h | h
    · exact ha2 c h
    · exact hb2 c h
  · intro c hc
    rcases List.mem_append.mp hc with h | h
    · exact ha3 c h
    · exact hb3 c h

theorem words_filtered_good (l : List Char) :
    ∀ t ∈ words ((l.map lowerChar).filter keepChar), GoodTok t := by
  intro t ht
  refine ⟨mem_splitAux_ne_nil _ [] t ht, mem_splitAux_no_space _ [] (by simp) t ht, ?_⟩
  intro c hc
  have hcF : c ∈ (l.map lowerChar).filter keepChar := by
    rcases mem_splitAux_chars _ [] t ht c hc with h | h
    · exact h
    · simp at h
  obtain ⟨hcm, hkeep⟩ := List.mem_filter.mp hcF
  obtain ⟨c0, _, he⟩ := List.mem_map.mp hcm
  exact ⟨by rw [← he]; exact lowerChar_idem c0, hkeep⟩

theorem canonTokens_good (l : List Char) : ∀ t ∈ canonTokens l, GoodTok t := by
  intro t ht
  have ht2 := mem_sortToks _ t ht
  exact mergeNumUnit_pred GoodTok (fun a b ha hb => goodTok_append ha hb) _
    (words_filtered_good l) t ht2

theorem canonList_chars (l : List Char) :
    ∀ c ∈ canonList l, lowerChar c = c ∧ keepChar c = true := by
  intro c hc
  rcases mem_unwords _ c hc with hsp | ⟨t, ht, hct⟩
  · subst hsp
    exact ⟨by decide, by decide⟩
  · exact (canonTokens_good l t ht).2.2 c hct

/-- C6 (amended): the canonicalizer is idempotent on every input whose
canonical token list is stable under number-unit merging, i.e. whose
canonical form has no bare-number token immediately followed by a unit
token. -/
theorem canonicalize_idem_of_merge_stable (s : String)
    (h : mergeNumUnit (canonTokens s.toList) = canonTokens s.toList) :
    canonicalize (canonicalize s) = canonicalize s := by
  have hchars := canonList_chars s.toList
  have hmap : (canonList s.toList).map lowerChar = canonList s.toList := by
    rw [List.map_congr_left (fun c hc => (hchars c hc).1)]
    exact List.map_id _
  have hfil : (canonList s.toList).filter keepChar = canonList s.toList :=
    List.filter_eq_self.mpr (fun c hc => (hchars c hc).2)
  have hwords : words (canonList s.toList) = canonTokens s.toList :=
    words_unwords _ (fun t ht => ⟨(canonTokens_good _ t ht).1, (canonTokens_good _ t ht).2.1⟩)
  have hsorted : sortToks (canonTokens s.toList) = canonTokens s.toList :=
    sortToks_eq_of_sorted _ (sortToks_sorted _)
  have hmain : canonList (canonList s.toList) = canonList s.toList := by
    show unwords (sortToks (mergeNumUnit (words
      (((canonList s.toList).map lowerChar).filter keepChar)))) = canonList s.toList
    rw [hmap, hfil, hwords, h, hsorted]
    rfl
  exact congrArg String.mk hmain

/-- C6 counterexample: canonicalizing the input kg 50 yields the string
50 kg, and canonicalizing again merges the now-adjacent bare number and
unit into 50kg, so the canonicalizer is not idempotent as claimed. -/
theorem canonicalize_not_idempotent :
    canonicalize (canonicalize (String.mk ['k', 'g', ' ', '5', '0']))
      ≠ canonicalize (String.mk ['k', 'g', ' ', '5', '0']) := by decide

/-- Witness for C6 at a concrete merge-stable input. -/
theorem canonicalize_idem_witness :
    canonicalize (canonicalize (String.mk ['S', 'e', 'm', 'e', 'n', ' ', '5', '0', 'k', 'g']))
      = canonicalize (String.mk ['S', 'e', 'm', 'e', 'n', ' ', '5', '0', 'k', 'g']) :=
  canonicalize_idem_of_merge_stable
    (String.mk ['S', 'e', 'm', 'e', 'n', ' ', '5', '0', 'k', 'g']) (by decide)

end CanonM

/-! ## Price resolution engine (spec sections 4.3 to 4.5) -/

namespace PriceEngineM

/-- Lookup request of the batch endpoint: name, quantity, unit. -/
structure LookupRequest where
  material_name : String
  quantity : Nat
  unit : String
deriving DecidableEq, Repr

/-- Provenance tag of a resolved price. -/
inductive Source where
  | cached
  | fuzzyCached
  | live
  | estimated
deriving DecidableEq, Repr

/-- Cached price record keyed by canonical name. -/
structure PriceRecord where
  canonical_name : String
  unit_price : Nat
  sample_size : Nat
  last_updated : Nat
deriving DecidableEq, Repr

/-- Per-item result: the request echoed back plus resolved unit price,
total, source tag and confidence. -/
structure LookupResult where
  material_name : String
  quantity : Nat
  unit : String
  unit_price : Nat
  total_price : Nat
  source : Source
  confidence : ℚ
deriving DecidableEq, Repr

/-- Outcome of the semantic matcher: exact tier, fuzzy tier, or miss. -/
inductive MatchOutcome where
  | exact (r : PriceRecord) (conf : ℚ)
  | fuzzy (r : PriceRecord) (conf : ℚ)
  | miss
deriving DecidableEq, Repr

/-- Upsert keyed by canonical_name, the cache store put. -/
def putRecord (cache : List PriceRecord) (r : PriceRecord) : List PriceRecord :=
  if cache.any (fun c => c.canonical_name == r.canonical_name) then
    cache.map (fun c => if c.canonical_name == r.canonical_name then r else c)
  else r :: cache

/-- Modelled from the spec: the backend price resolution engine and the
semantic matcher behind the batch price endpoint are not among the
sources, so resolve_batch is modelled from spec sections 4.3 to 4.5 with
the matcher and the live marketplace resolver as abstract parameters.
One request runs the semantic matcher first; on a miss it invokes the
resolver, whose result is written back to the cache; on resolver failure
it returns a zero-confidence estimated sentinel instead of failing the
batch. Returns the item result, the updated cache, and whether the item
was a cache hit and whether it was a live scrape. -/
def resolveOne (matcher : String → List PriceRecord → MatchOutcome)
    (resolver : String → Option (PriceRecord × ℚ))
    (cache : List PriceRecord) (req : LookupRequest) :
    LookupResult × List PriceRecord × Bool × Bool :=
  match matcher req.material_name cache with
  | .exact r conf =>
    ({ material_name := req.material_name, quantity := req.quantity, unit := req.unit,
       unit_price := r.unit_price, total_price := r.unit_price * req.quantity,
       source := .cached, confidence := conf }, cache, true, false)
  | .fuzzy r conf =>
    ({ material_name := req.material_name, quantity := req.quantity, unit := req.unit,
       unit_price := r.unit_price, total_price := r.unit_price * req.quantity,
       source := .fuzzyCached, confidence := conf }, cache, true, false)
  | .miss =>
    match resolver req.material_name with
    | some (r, conf) =>
      ({ material_name := req.material_name, quantity := req.quantity, unit := req.unit,
         unit_price := r.unit_price, total_price := r.unit_price * req.quantity,
         source := .live, confidence := conf }, putRecord cache r, false, true)
    | none =>
      ({ material_name := req.material_name, quantity := req.quantity, unit := req.unit,
         unit_price := 0, total_price := 0, source := .estimated, confidence := 0 },
       cache, false, false)

/-- Sequential resolution of a request list, threading the cache and
accumulating cache-hit and live-scrape counters. -/
def resolveBatchAux (matcher : String → List PriceRecord → MatchOutcome)
    (resolver : String → Option (PriceRecord × ℚ)) :
    List LookupRequest → List PriceRecord →
      List LookupResult × List PriceRecord × Nat × Nat
  | [], cache => ([], cache, 0, 0)
  | req :: rest, cache =>
    let one := resolveOne matcher resolver cache req
    let restOut := resolveBatchAux matcher resolver rest one.2.1
    (one.1 :: restOut.1, restOut.2.1,
     (if one.2.2.1 then 1 else 0) + restOut.2.2.1,
     (if one.2.2.2 then 1 else 0) + restOut.2.2.2)

/-- Hard cap of the batch price endpoint: 20 items per request. -/
def MAX_BATCH_SIZE : Nat := 20

inductive ValidationError where
  | oversizedBatch
deriving DecidableEq, Repr

/-- Batch response shape of the endpoint: per-item prices plus aggregate
totals and counts. -/
structure BatchPriceLookupResponse where
  prices : List LookupResult
  total_cost_idr : Nat
  items_priced : Nat
  cache_hits : Nat
  scrape_count : Nat
deriving DecidableEq, Repr

/-- Batch resolution: oversized batches are rejected with a validation
error before any item is resolved; otherwise every request is resolved in
order and aggregated. -/
def resolveBatch (matcher : String → List PriceRecord → MatchOutcome)
    (resolver : String → Option (PriceRecord × ℚ))
    (cache : List PriceRecord) (reqs : List LookupRequest) :
    Except ValidationError (BatchPriceLookupResponse × List PriceRecord) :=
  if MAX_BATCH_SIZE < reqs.length then .error .oversizedBatch
  else
    let out := resolveBatchAux matcher resolver reqs cache
    .ok ({ prices := out.1
           total_cost_idr := (out.1.map (·.total_price)).sum
           items_priced := out.1.length
           cache_hits := out.2.2.1
           scrape_count := out.2.2.2 }, out.2.1)

theorem resolveOne_echo (matcher : String → List PriceRecord → MatchOutcome)
    (resolver : String → Option (PriceRecord × ℚ))
    (cache : List PriceRecord) (req : LookupRequest) :
    (resolveOne matcher resolver cache req).1.material_name = req.material_name ∧
    (resolveOne matcher resolver cache req).1.quantity = req.quantity ∧
    (resolveOne matcher resolver cache req).1.unit = req.unit := by
  unfold resolveOne
  cases matcher req.material_name cache with
  | exact r conf => exact ⟨rfl, rfl, rfl⟩
  | fuzzy r conf => exact ⟨rfl, rfl, rfl⟩
  | miss =>
    cases resolver req.material_name with
    | none => exact ⟨rfl, rfl, rfl⟩
    | some rc => exact ⟨rfl, rfl, rfl⟩

theorem resolveBatchAux_echo (matcher : String → List PriceRecord → MatchOutcome)
    (resolver : String → Option (PriceRecord × ℚ)) (reqs : List LookupRequest) :
    ∀ cache : List PriceRecord,
      (resolveBatchAux matcher resolver reqs cache).1.map
          (fun p => (p.material_name, p.quantity, p.unit))
        = reqs.map (fun q => (q.material_name, q.quantity, q.unit)) := by
  induction reqs with
  | nil => intro cache; rfl
  | cons q rest ih =>
    intro cache
    obtain ⟨e1, e2, e3⟩ := resolveOne_echo matcher resolver cache q
    simp only [resolveBatchAux, List.map_cons, ih, e1, e2, e3]

/-- C4: for every batch within the size cap, resolution succeeds and the
result list echoes the request list position by position — the same
length, and item i carries the name, quantity and unit of request i,
whatever mix of cache hits and live lookups occurred. -/
theorem batch_preserves_length_and_order
    (matcher : String → List PriceRecord → MatchOutcome)
    (resolver : String → Option (PriceRecord × ℚ))
    (cache : List PriceRecord) (reqs : List LookupRequest)
    (h : reqs.length ≤ MAX_BATCH_SIZE) :
    ∃ resp newCache,
      resolveBatch matcher resolver cache reqs = .ok (resp, newCache) ∧
      resp.prices.length = reqs.length ∧
      resp.prices.map (fun p => (p.material_name, p.quantity, p.unit))
        = reqs.map (fun q => (q.material_name, q.quantity, q.unit)) := by
  have hcond : ¬ (MAX_BATCH_SIZE < reqs.length) := Nat.not_lt.mpr h
  have he := resolveBatchAux_echo matcher resolver reqs cache
  have hlen : (resolveBatchAux matcher resolver reqs cache).1.length = reqs.length := by
    have := congrArg List.length he
    simpa using this
  refine ⟨{ prices := (resolveBatchAux matcher resolver reqs cache).1
            total_cost_idr := ((resolveBatchAux matcher resolver reqs cache).1.map (·.total_price)).sum
            items_priced := (resolveBatchAux matcher resolver reqs cache).1.length
            cache_hits := (resolveBatchAux matcher resolver reqs cache).2.2.1
            scrape_count := (resolveBatchAux matcher resolver reqs cache).2.2.2 },
    (resolveBatchAux matcher resolver reqs cache).2.1, ?_, hlen, he⟩
  unfold resolveBatch
  rw [if_neg hcond]

/-- Semantic matcher that always misses, for concrete evaluation. -/
def missMatcher : String → List PriceRecord → MatchOutcome := fun _ _ => .miss

/-- Marketplace resolver that always fails, for concrete evaluation. -/
def failResolver : String → Option (PriceRecord × ℚ) := fun _ => none

/-- Witness for C4 on a concrete one-item batch. -/
theorem batch_preserves_length_witness :
    ∃ resp newCache,
      resolveBatch missMatcher failResolver [] [⟨"semen", 2, "sak"⟩] = .ok (resp, newCache) ∧
      resp.prices.length = [(⟨"semen", 2, "sak"⟩ : LookupRequest)].length ∧
      resp.prices.map (fun p => (p.material_name, p.quantity, p.unit))
        = [(⟨"semen", 2, "sak"⟩ : LookupRequest)].map
            (fun q => (q.material_name, q.quantity, q.unit)) :=
  batch_preserves_length_and_order missMatcher failResolver [] [⟨"semen", 2, "sak"⟩]
    (by decide)

/-- C7: a batch whose item count exceeds the 20-item cap is rejected with
a validation error: no item results are returned and no updated cache is
produced. -/
theorem batch_rejects_oversized
    (matcher : String → List PriceRecord → MatchOutcome)
    (resolver : String → Option (PriceRecord × ℚ))
    (cache : List PriceRecord) (reqs : List LookupRequest)
    (h : MAX_BATCH_SIZE < reqs.length) :
    resolveBatch matcher resolver cache reqs = .error .oversizedBatch := by
  unfold resolveBatch
  rw [if_pos h]

/-- Witness for C7 on a concrete 21-item batch. -/
theorem batch_rejects_oversized_witness :
    resolveBatch missMatcher failResolver []
      (List.replicate 21 ⟨"semen", 1, "sak"⟩) = .error .oversizedBatch :=
  batch_rejects_oversized missMatcher failResolver []
    (List.replicate 21 ⟨"semen", 1, "sak"⟩) (by decide)

end PriceEngineM

/-! ## Material checklist hook (frontend/lib/hooks/useMaterialChecklist.ts) -/

namespace ChecklistM

/-- BOM item, restricted to the fields the checklist hook reads. -/
structure BOMItem where
  material_name : List Char
  unit : List Char
  quantity : Nat
  total_price_idr : Int
deriving DecidableEq, Repr

/-- ShoppingItem extends BOMItem with the stable id and purchase flag. -/
structure ShoppingItem extends BOMItem where
  id : List Char
  isPurchased : Bool
deriving DecidableEq, Repr

/-- getItemKey from the hook: material_name, a pipe, and the unit. -/
def getItemKey (it : BOMItem) : List Char := it.material_name ++ '|' :: it.unit

def digitChar10 (d : Nat) : Char := Char.ofNat (48 + d)

def natStrAux : Nat → Nat → List Char → List Char
  | 0, _, acc => acc
  | fuel + 1, n, acc =>
    if n = 0 then acc else natStrAux fuel (n / 10) (digitChar10 (n % 10) :: acc)

/-- Decimal rendering of a natural number, as the TS template string. -/
def natStr (n : Nat) : List Char := if n = 0 then ['0'] else natStrAux n n []

/-- Stable id of the hook: bom- plus the key, with a hash-occurrence
suffix on duplicates. -/
def stableId (key : List Char) (occ : Nat) : List Char :=
  if occ = 0 then ['b', 'o', 'm', '-'] ++ key
  else ['b', 'o', 'm', '-'] ++ (key ++ '#' :: natStr occ)

/-- Map of previous purchase states keyed by item id; Map.set semantics,
a later entry overwrites an earlier one. -/
def buildPrevMap (prev : List ShoppingItem) : List Char → Option Bool :=
  prev.foldl (fun m it => fun k => if k = it.id then some it.isPurchased else m k)
    (fun _ => none)

/-- Body of the sync effect: map the new BOM items to shopping items with
content-based ids, counting key occurrences as the hook's keyOccurrences
map, and carry over the previous purchase state found under the same id,
defaulting to unpurchased. -/
def syncGo (pm : List Char → Option Bool) (occs : List Char → Nat) :
    List BOMItem → List ShoppingItem
  | [] => []
  | it :: rest =>
    let key := getItemKey it
    let occ := occs key
    let sid := stableId key occ
    { toBOMItem := it, id := sid, isPurchased := (pm sid).getD false }
      :: syncGo pm (fun k => if k = key then occ + 1 else occs k) rest

/-- The new items list computed by the sync effect from the previous
items and the new bomItems. -/
def syncItems (prev : List ShoppingItem) (bom : List BOMItem) : List ShoppingItem :=
  syncGo (buildPrevMap prev) (fun _ => 0) bom

/-- Number of items of the list whose key equals k. -/
def countKey (k : List Char) (l : List BOMItem) : Nat :=
  (l.filter (fun b => getItemKey b == k)).length

/-- Annotate each item with its occurrence index among earlier items of
the same key. -/
def occList : (List Char → Nat) → List ShoppingItem → List (ShoppingItem × Nat)
  | _, [] => []
  | occs, p :: rest =>
    (p, occs (getItemKey p.toBOMItem))
      :: occList (fun k => if k = getItemKey p.toBOMItem
          then occs (getItemKey p.toBOMItem) + 1 else occs k) rest

def withOccs (l : List ShoppingItem) : List (ShoppingItem × Nat) := occList (fun _ => 0) l

/-- Strings free of the two id-delimiter characters. -/
def CleanStr (l : List Char) : Prop := '|' ∉ l ∧ '#' ∉ l

def CleanBOM (bom : List BOMItem) : Prop :=
  ∀ it ∈ bom, CleanStr it.material_name ∧ CleanStr it.unit

instance (l : List Char) : Decidable (CleanStr l) := by
  unfold CleanStr
  infer_instance

instance (bom : List BOMItem) : Decidable (CleanBOM bom) := by
  unfold CleanBOM
  infer_instance

/-- The purchase flag the claim says item (key, occ) must receive: the
flag of the previous item with the same key and occurrence index, or
false when no such item exists. -/
def flagLookup (prev : List ShoppingItem) (key : List Char) (occ : Nat) : Bool :=
  match (withOccs prev).find?
      (fun pr => getItemKey pr.1.toBOMItem == key && pr.2 == occ) with
  | some pr => pr.1.isPurchased
  | none => false

def unDigits (l : List Char) : Nat := l.foldl (fun a ch => a * 10 + (ch.toNat - 48)) 0

theorem unDigits_foldl (l : List Char) : ∀ a : Nat,
    l.foldl (fun x ch => x * 10 + (ch.toNat - 48)) a = a * 10 ^ l.length + unDigits l := by
  induction l with
  | nil => intro a; simp [unDigits]
  | cons ch rest ih =>
    intro a
    rw [List.foldl_cons, ih]
    have h2 : unDigits (ch :: rest) = (ch.toNat - 48) * 10 ^ rest.length + unDigits rest := by
      show List.foldl _ (0 * 10 + (ch.toNat - 48)) rest = _
      rw [Nat.zero_mul, Nat.zero_add, ih]
    rw [h2, List.length_cons, pow_succ]
    ring

theorem digitChar10_toNat (d : Nat) (hd : d < 10) : (digitChar10 d).toNat = 48 + d :=
  CanonM.charToNat_ofNat_of_lt _ (by omega)

theorem natStrAux_val : ∀ (fuel n : Nat) (acc : List Char), n ≤ fuel →
    unDigits (natStrAux fuel n acc) = n * 10 ^ acc.length + unDigits acc
  | 0, n, acc => fun hn => by
    have h0 : n = 0 := Nat.le_zero.mp hn
    subst h0
    simp [natStrAux]
  | fuel + 1, n, acc => fun hn => by
    by_cases h0 : n = 0
    · subst h0
      simp [natStrAux]
    · simp only [natStrAux, if_neg h0]
      have hle : n / 10 ≤ fuel := by
        have hdiv : n / 10 < n := Nat.div_lt_self (Nat.pos_of_ne_zero h0) (by norm_num)
        omega
      rw [natStrAux_val fuel (n / 10) (digitChar10 (n % 10) :: acc) hle]
      have hv : unDigits (digitChar10 (n % 10) :: acc)
          = (n % 10) * 10 ^ acc.length + unDigits acc := by
        show List.foldl _ (0 * 10 + ((digitChar10 (n % 10)).toNat - 48)) acc = _
        rw [digitChar10_toNat (n % 10) (Nat.mod_lt n (by omega))]
        rw [Nat.zero_mul, Nat.zero_add, Nat.add_sub_cancel_left]
        exact unDigits_foldl acc (n % 10)
      rw [List.length_cons, hv]
      have hkey : n / 10 * 10 ^ (acc.length + 1) + n % 10 * 10 ^ acc.length
          = n * 10 ^ acc.length := by
        rw [pow_succ]
        have hm := Nat.div_add_mod n 10
        calc n / 10 * (10 ^ acc.length * 10) + n % 10 * 10 ^ acc.length
            = (10 * (n / 10) + n % 10) * 10 ^ acc.length := by ring
          _ = n * 10 ^ acc.length := by rw [hm]
      omega

theorem unDigits_natStr (n : Nat) : unDigits (natStr n) = n := by
  by_cases h0 : n = 0
  · subst h0
    rfl
  · rw [natStr, if_neg h0, natStrAux_val n n [] (Nat.le_refl n)]
    simp [unDigits]

theorem natStr_inj {m n : Nat} (h : natStr m = natStr n) : m = n := by
  have := congrArg unDigits h
  rwa [unDigits_natStr, unDigits_natStr] at this

theorem natStrAux_chars : ∀ (fuel n : Nat) (acc : List Char),
    ∀ ch ∈ natStrAux fuel n acc, ch ∈ acc ∨ ∃ d, d < 10 ∧ ch = digitChar10 d
  | 0, _, acc => fun ch hch => Or.inl hch
  | fuel + 1, n, acc => fun ch hch => by
    by_cases h0 : n = 0
    · simp only [natStrAux, if_pos h0] at hch
      exact Or.inl hch
    · simp only [natStrAux, if_neg h0] at hch
      rcases natStrAux_chars fuel (n / 10) (digitChar10 (n % 10) :: acc) ch hch with h | h
      · rcases List.mem_cons.mp h with he | hm
        · exact Or.inr ⟨n % 10, Nat.mod_lt n (by omega), he⟩
        · exact Or.inl hm
      · exact Or.inr h

theorem hash_not_mem_natStr (n : Nat) : '#' ∉ natStr n := by
  intro hm
  by_cases h0 : n = 0
  · subst h0
    simp [natStr] at hm
  · rw [natStr, if_neg h0] at hm
    rcases natStrAux_chars n n [] '#' hm with h | ⟨d, hd, he⟩
    · simp at h
    · have ht := digitChar10_toNat d hd
      rw [← he] at ht
      have h35 : ('#' : Char).toNat = 35 := rfl
      omega

theorem append_sep_inj (c : Char) : ∀ (a b x y : List Char), c ∉ a → c ∉ b →
    a ++ c :: x = b ++ c :: y → a = b ∧ x = y
  | [], [], x, y => fun _ _ h => ⟨rfl, by simpa using h⟩
  | [], d :: b', x, y => fun _ hb h => by
    simp only [List.nil_append, List.cons_append, List.cons.injEq] at h
    exact absurd (h.1 ▸ List.mem_cons_self d b') hb
  | d :: a', [], x, y => fun ha _ h => by
    simp only [List.nil_append, List.cons_append, List.cons.injEq] at h
    exact absurd (h.1 ▸ List.mem_cons_self d a') ha
  | d :: a', e :: b', x, y => fun ha hb h => by
    simp only [List.cons_append, List.cons.injEq] at h
    obtain ⟨hde, h2⟩ := h
    have ih := append_sep_inj c a' b' x y
      (fun hm => ha (List.mem_cons_of_mem d hm))
      (fun hm => hb (List.mem_cons_of_mem e hm)) h2
    exact ⟨by rw [hde, ih.1], ih.2⟩

theorem stableId_inj {k1 k2 : List Char} {o1 o2 : Nat}
    (h1 : '#' ∉ k1) (h2 : '#' ∉ k2)
    (he : stableId k1 o1 = stableId k2 o2) : k1 = k2 ∧ o1 = o2 := by
  unfold stableId at he
  by_cases ho1 : o1 = 0 <;> by_cases ho2 : o2 = 0
  · rw [if_pos ho1, if_pos ho2] at he
    exact ⟨List.append_cancel_left he, by omega⟩
  · rw [if_pos ho1, if_neg ho2] at he
    have hk : k1 = k2 ++ '#' :: natStr o2 := List.append_cancel_left he
    exact absurd (hk ▸ List.mem_append.mpr (Or.inr (List.mem_cons_self _ _))) h1
  · rw [if_neg ho1, if_pos ho2] at he
    have hk : k1 ++ '#' :: natStr o1 = k2 := List.append_cancel_left he
    exact absurd (hk ▸ List.mem_append.mpr (Or.inr (List.mem_cons_self _ _))) h2
  · rw [if_neg ho1, if_neg ho2] at he
    have hk : k1 ++ '#' :: natStr o1 = k2 ++ '#' :: natStr o2 := List.append_cancel_left he
    obtain ⟨hkk, hnn⟩ := append_sep_inj '#' k1 k2 (natStr o1) (natStr o2) h1 h2 hk
    exact ⟨hkk, natStr_inj hnn⟩

theorem key_no_hash {it : BOMItem} (h : CleanStr it.material_name ∧ CleanStr it.unit) :
    '#' ∉ getItemKey it := by
  intro hm
  rcases List.mem_append.mp hm with h1 | h1
  · exact h.1.2 h1
  · rcases List.mem_cons.mp h1 with he | h2
    · exact absurd he (by decide)
    · exact h.2.2 h2

theorem getItemKey_inj {a b : BOMItem}
    (ha : CleanStr a.material_name) (hb : CleanStr b.material_name)
    (h : getItemKey a = getItemKey b) :
    a.material_name = b.material_name ∧ a.unit = b.unit :=
  append_sep_inj '|' a.material_name b.material_name a.unit b.unit ha.1 hb.1 h

theorem countKey_cons (k : List Char) (it : BOMItem) (l : List BOMItem) :
    countKey k (it :: l) = (if getItemKey it = k then 1 else 0) + countKey k l := by
  by_cases h : getItemKey it = k <;>
    simp [countKey, List.filter_cons, h, Nat.add_comm]

theorem countKey_append (k : List Char) (a b : List BOMItem) :
    countKey k (a ++ b) = countKey k a + countKey k b := by
  simp [countKey, List.filter_append]

theorem syncGo_length : ∀ (bom : List BOMItem) (pm : List Char → Option Bool)
    (occs : List Char → Nat), (syncGo pm occs bom).length = bom.length
  | [], _, _ => rfl
  | it :: rest, pm, occs => by
    simp only [syncGo, List.length_cons]
    rw [syncGo_length rest pm _]

theorem syncGo_get? : ∀ (bom : List BOMItem) (pm : List Char → Option Bool)
    (occs : List Char → Nat) (j : Nat),
    (syncGo pm occs bom).get? j = (bom.get? j).map (fun it =>
      { toBOMItem := it
        id := stableId (getItemKey it)
          (occs (getItemKey it) + countKey (getItemKey it) (bom.take j))
        isPurchased := (pm (stableId (getItemKey it)
          (occs (getItemKey it) + countKey (getItemKey it) (bom.take j)))).getD false })
  | [], pm, occs, j => by simp [syncGo]
  | it :: rest, pm, occs, 0 => by
    simp [syncGo, countKey]
  | it :: rest, pm, occs, j + 1 => by
    have ih := syncGo_get? rest pm
      (fun k => if k = getItemKey it then occs (getItemKey it) + 1 else occs k) j
    rw [show syncGo pm occs (it :: rest)
        = { toBOMItem := it, id := stableId (getItemKey it) (occs (getItemKey it)),
            isPurchased := (pm (stableId (getItemKey it) (occs (getItemKey it)))).getD false }
          :: syncGo pm (fun k => if k = getItemKey it then occs (getItemKey it) + 1 else occs k)
              rest
      from rfl]
    rw [List.get?_cons_succ, ih, List.get?_cons_succ, List.take_succ_cons]
    cases hg : rest.get? j with
    | none => rfl
    | some it' =>
      simp only [Option.map_some']
      have hocc : (if getItemKey it' = getItemKey it then occs (getItemKey it) + 1
            else occs (getItemKey it')) + countKey (getItemKey it') (rest.take j)
          = occs (getItemKey it') + countKey (getItemKey it') (it :: rest.take j) := by
        rw [countKey_cons]
        by_cases hkk : getItemKey it' = getItemKey it
        · rw [if_pos hkk, if_pos hkk.symm, hkk]
          omega
        · rw [if_neg hkk, if_neg (fun he => hkk he.symm)]
          omega
      rw [hocc]

theorem countKey_take_lt (bom : List BOMItem) (i j : Nat) (hi : i < bom.length)
    (hij : i < j) :
    countKey (getItemKey bom[i]) (bom.take i)
      < countKey (getItemKey bom[i]) (bom.take j) := by
  have hsucc : countKey (getItemKey bom[i]) (bom.take (i + 1))
      = countKey (getItemKey bom[i]) (bom.take i) + 1 := by
    rw [List.take_succ, List.getElem?_eq_getElem hi, countKey_append]
    simp [countKey, List.filter_cons]
  have hmono : countKey (getItemKey bom[i]) (bom.take (i + 1))
      ≤ countKey (getItemKey bom[i]) (bom.take j) := by
    have hsplit : bom.take j
        = (bom.take j).take (i + 1) ++ (bom.take j).drop (i + 1) :=
      (List.take_append_drop (i + 1) (bom.take j)).symm
    have htt : (bom.take j).take (i + 1) = bom.take (i + 1) := by
      rw [List.take_take, Nat.min_eq_left hij]
    calc countKey (getItemKey bom[i]) (bom.take (i + 1))
        = countKey (getItemKey bom[i]) ((bom.take j).take (i + 1)) := by rw [htt]
      _ ≤ countKey (getItemKey bom[i]) (bom.take j) := by
          conv_rhs => rw [hsplit]
          rw [countKey_append]
          omega
  omega

theorem foldl_upd_eq : ∀ (l : List ShoppingItem) (m : List Char → Option Bool)
    (k : List Char),
    (l.foldl (fun m2 it => fun k2 => if k2 = it.id then some it.isPurchased else m2 k2) m) k
      = ((l.reverse.find? (fun p => p.id == k)).map (fun p => p.isPurchased)).or (m k)
  | [], m, k => by simp
  | p :: rest, m, k => by
    rw [List.foldl_cons,
      foldl_upd_eq rest (fun k2 => if k2 = p.id then some p.isPurchased else m k2) k,
      List.reverse_cons, List.find?_append]
    cases hfr : rest.reverse.find? (fun q => q.id == k) with
    | some q => simp
    | none =>
      simp only [Option.map_none', Option.none_or]
      by_cases hpk : p.id = k
      · have hfind : (List.find? (fun q => q.id == k) [p]) = some p := by
          simp [List.find?_cons, hpk]
        rw [hfind]
        have hk2 : k = p.id := hpk.symm
        simp [hk2]
      · have hfind : (List.find? (fun q => q.id == k) [p]) = none := by
          simp [List.find?_cons, hpk]
        rw [hfind]
        have hk2 : ¬ (k = p.id) := fun he => hpk he.symm
        simp [hk2]

theorem find?_reverse_eq : ∀ (l : List ShoppingItem),
    l.Pairwise (fun a b => a.id ≠ b.id) → ∀ k : List Char,
    l.reverse.find? (fun p => p.id == k) = l.find? (fun p => p.id == k)
  | [], _, _ => rfl
  | p :: rest, hd, k => by
    obtain ⟨hp, hrest⟩ := List.pairwise_cons.mp hd
    rw [List.reverse_cons, List.find?_append, find?_reverse_eq rest hrest k]
    by_cases hpk : p.id = k
    · have hnone : rest.find? (fun q => q.id == k) = none := by
        rw [List.find?_eq_none]
        intro q hq
        simp only [beq_iff_eq]
        intro he
        exact hp q hq (hpk.trans he.symm)
      rw [hnone]
      simp [List.find?_cons, hpk]
    · simp [List.find?_cons, hpk]

theorem occList_map_fst : ∀ (occs : List Char → Nat) (l : List ShoppingItem),
    (occList occs l).map (fun pr => pr.1) = l
  | _, [] => rfl
  | occs, p :: rest => by
    simp only [occList, List.map_cons]
    rw [occList_map_fst _ rest]

theorem find?_congr {α : Type} (p q : α → Bool) : ∀ l : List α,
    (∀ x ∈ l, p x = q x) → l.find? p = l.find? q
  | [], _ => rfl
  | a :: l, h => by
    rw [List.find?_cons, List.find?_cons, h a (List.mem_cons_self a l),
      find?_congr p q l (fun x hx => h x (List.mem_cons_of_mem a hx))]

/-- Purchase-state carry-over of the sync effect, rephrased as the
claim's lookup: under well-formed previous items, looking up the stable
id in the previous map finds exactly the previous item with the same key
and occurrence index. -/
theorem buildPrevMap_stableId (prev : List ShoppingItem)
    (hp1 : prev.Pairwise (fun a b => a.id ≠ b.id))
    (hp2 : ∀ pr ∈ withOccs prev, pr.1.id = stableId (getItemKey pr.1.toBOMItem) pr.2 ∧
      CleanStr pr.1.toBOMItem.material_name ∧ CleanStr pr.1.toBOMItem.unit)
    (key : List Char) (occ : Nat) (hkey : '#' ∉ key) :
    (buildPrevMap prev (stableId key occ)).getD false = flagLookup prev key occ := by
  rw [show buildPrevMap prev (stableId key occ)
      = (prev.foldl (fun m2 it => fun k2 => if k2 = it.id then some it.isPurchased else m2 k2)
          (fun _ => none)) (stableId key occ) from rfl]
  rw [foldl_upd_eq prev (fun _ => none) (stableId key occ), Option.or_none,
    find?_reverse_eq prev hp1]
  conv_lhs => rw [show prev = (withOccs prev).map (fun pr => pr.1) from
    (occList_map_fst (fun _ => 0) prev).symm]
  rw [List.find?_map]
  rw [find?_congr ((fun p => p.id == stableId key occ) ∘ fun pr => pr.1)
    (fun pr => getItemKey pr.1.toBOMItem == key && pr.2 == occ) (withOccs prev) ?_]
  · rw [flagLookup]
    cases (withOccs prev).find? (fun pr => getItemKey pr.1.toBOMItem == key && pr.2 == occ) with
    | none => rfl
    | some pr => rfl
  · intro pr hpr
    obtain ⟨hid, hcls⟩ := hp2 pr hpr
    simp only [Function.comp_apply, hid]
    by_cases hm : getItemKey pr.1.toBOMItem = key ∧ pr.2 = occ
    · rw [hm.1, hm.2]
      simp
    · have hne : stableId (getItemKey pr.1.toBOMItem) pr.2 ≠ stableId key occ := by
        intro he
        exact hm (stableId_inj (key_no_hash hcls) hkey he)
      have h1 : (stableId (getItemKey pr.1.toBOMItem) pr.2 == stableId key occ) = false := by
        simp only [beq_eq_false_iff_ne]
        exact hne
      rw [h1]
      by_cases h2 : getItemKey pr.1.toBOMItem = key
      · have h3 : pr.2 ≠ occ := fun ho => hm ⟨h2, ho⟩
        simp [h2, h3]
      · simp [h2]

/-- C10 (amended): over previous items carrying the well-formed
content-based ids with no duplicates, and BOM lists whose material names
and units contain neither the pipe nor the hash character, the sync
effect assigns pairwise-distinct stable ids, keeps the list length, and
gives item j the id built from its material_name-unit key and its
occurrence index among earlier same-key items, with its purchase flag
taken from the previous item with the same key and occurrence index and
false (unpurchased) when no such previous item exists. -/
theorem checklist_ids_distinct_and_flags_preserved
    (prev : List ShoppingItem) (bom : List BOMItem)
    (hb : CleanBOM bom)
    (hp1 : prev.Pairwise (fun a b => a.id ≠ b.id))
    (hp2 : ∀ pr ∈ withOccs prev, pr.1.id = stableId (getItemKey pr.1.toBOMItem) pr.2 ∧
      CleanStr pr.1.toBOMItem.material_name ∧ CleanStr pr.1.toBOMItem.unit) :
    (syncItems prev bom).Pairwise (fun a b => a.id ≠ b.id) ∧
    (syncItems prev bom).length = bom.length ∧
    (∀ j : Nat, (syncItems prev bom).get? j = (bom.get? j).map (fun it =>
      { toBOMItem := it
        id := stableId (getItemKey it) (countKey (getItemKey it) (bom.take j))
        isPurchased := flagLookup prev (getItemKey it)
          (countKey (getItemKey it) (bom.take j)) })) := by
  have hget : ∀ j : Nat, (syncItems prev bom).get? j = (bom.get? j).map (fun it =>
      { toBOMItem := it
        id := stableId (getItemKey it) (countKey (getItemKey it) (bom.take j))
        isPurchased := flagLookup prev (getItemKey it)
          (countKey (getItemKey it) (bom.take j)) }) := by
    intro j
    rw [show syncItems prev bom = syncGo (buildPrevMap prev) (fun _ => 0) bom from rfl]
    rw [syncGo_get? bom (buildPrevMap prev) (fun _ => 0) j]
    cases hg : bom.get? j with
    | none => rfl
    | some it =>
      simp only [Option.map_some']
      have hmem : it ∈ bom := List.get?_mem hg
      have hclean := hb it hmem
      have hflag := buildPrevMap_stableId prev hp1 hp2 (getItemKey it)
        (countKey (getItemKey it) (bom.take j)) (key_no_hash hclean)
      rw [show (0 : Nat) + countKey (getItemKey it) (bom.take j)
          = countKey (getItemKey it) (bom.take j) from Nat.zero_add _]
      rw [hflag]
  have hlen : (syncItems prev bom).length = bom.length :=
    syncGo_length bom (buildPrevMap prev) (fun _ => 0)
  refine ⟨?_, hlen, hget⟩
  rw [List.pairwise_iff_get]
  intro i j hij
  have hi : (i : Nat) < bom.length := hlen ▸ i.isLt
  have hj : (j : Nat) < bom.length := hlen ▸ j.isLt
  have hgi := hget i
  have hgj := hget j
  rw [List.get?_eq_get i.isLt, List.get?_eq_get hi, Option.map_some'] at hgi
  rw [List.get?_eq_get j.isLt, List.get?_eq_get hj, Option.map_some'] at hgj
  have hvi := Option.some.inj hgi
  have hvj := Option.some.inj hgj
  intro heq
  rw [hvi, hvj] at heq
  simp only at heq
  have hmi : bom.get ⟨(i : Nat), hi⟩ ∈ bom := List.get_mem bom (i : Nat) hi
  have hmj : bom.get ⟨(j : Nat), hj⟩ ∈ bom := List.get_mem bom (j : Nat) hj
  obtain ⟨hkeq, hoeq⟩ := stableId_inj (key_no_hash (hb _ hmi)) (key_no_hash (hb _ hmj)) heq
  have hlt := countKey_take_lt bom (i : Nat) (j : Nat) hi hij
  rw [show bom[(i : Nat)] = bom.get ⟨(i : Nat), hi⟩ from rfl] at hlt
  rw [← hkeq] at hoeq
  omega

/-- A BOM list with a hash character in a unit, colliding with the
occurrence suffix of a triplicated item. -/
def bomEx : List BOMItem :=
  [⟨['a'], ['1'], 1, 0⟩, ⟨['a'], ['1'], 1, 0⟩, ⟨['a'], ['1'], 1, 0⟩,
   ⟨['a'], ['1', '#', '2'], 1, 0⟩]

/-- C10 counterexample: on bomEx the third copy of the item with unit 1
receives the id bom-a|1#2, which is also the occurrence-0 id of the item
with unit 1#2, so the hook ids are not pairwise distinct as claimed. -/
theorem checklist_ids_not_distinct :
    ¬ (syncItems [] bomEx).Pairwise (fun a b => a.id ≠ b.id) := by decide

def prevEx : List ShoppingItem :=
  syncItems [] [⟨['a'], ['u'], 1, 0⟩, ⟨['a'], ['u'], 1, 0⟩]

def bomW : List BOMItem := [⟨['a'], ['u'], 1, 0⟩, ⟨['b'], ['u'], 2, 5⟩]

/-- Witness for C10 at a concrete previous state and update. -/
theorem checklist_ids_distinct_witness :
    (syncItems prevEx bomW).Pairwise (fun a b => a.id ≠ b.id) ∧
    (syncItems prevEx bomW).length = bomW.length ∧
    (∀ j : Nat, (syncItems prevEx bomW).get? j = (bomW.get? j).map (fun it =>
      { toBOMItem := it
        id := stableId (getItemKey it) (countKey (getItemKey it) (bomW.take j))
        isPurchased := flagLookup prevEx (getItemKey it)
          (countKey (getItemKey it) (bomW.take j)) })) :=
  checklist_ids_distinct_and_flags_preserved prevEx bomW (by decide) (by decide) (by decide)

end ChecklistM

/-! ## Job orchestrator state machine (spec section 4.6) -/

namespace JobM

/-- Job processing states, as the boq_job_status enum and EstimateStatus. -/
inductive JobStatus where
  | pending
  | processing
  | completed
  | failed
deriving DecidableEq, Repr

/-- Job record: status, progress, message, result payload and error
message, as in the Job data model. -/
structure Job (α : Type) where
  status : JobStatus
  progress : Nat
  message : String
  result : Option α
  error_message : Option String
deriving DecidableEq, Repr

/-- Newly created job: pending with zero progress and no payloads, the
boq_jobs schema defaults. -/
def initJob {α : Type} : Job α :=
  { status := .pending, progress := 0, message := "", result := none, error_message := none }

def JobStatus.isTerminal : JobStatus → Bool
  | .completed => true
  | .failed => true
  | _ => false

/-- Modelled from the spec: the backend job orchestrator (the estimate
and BoQ processing pipelines behind the polled status endpoints) is not
among the sources, so its transitions are modelled from spec section 4.6:
start sets a small non-zero progress, milestones increase progress,
completion stores the result and forces progress to 100, failure stores a
user-safe error message and freezes progress. -/
inductive Step {α : Type} : Job α → Job α → Prop where
  | start (j : Job α) (p : Nat) (msg : String) :
      j.status = .pending → 0 < p → p ≤ 100 →
      Step j { j with status := .processing, progress := p, message := msg }
  | milestone (j : Job α) (p : Nat) (msg : String) :
      j.status = .processing → j.progress < p → p ≤ 100 →
      Step j { j with progress := p, message := msg }
  | complete (j : Job α) (r : α) (msg : String) :
      j.status = .processing →
      Step j { j with status := .completed, progress := 100, message := msg, result := some r }
  | fail (j : Job α) (e : String) :
      j.status = .processing →
      Step j { j with status := .failed, error_message := some e }

/-- States reachable from a newly created job. -/
inductive Reachable {α : Type} : Job α → Prop where
  | init : Reachable initJob
  | step {j j' : Job α} : Reachable j → Step j j' → Reachable j'

/-- Orchestrator invariant over reachable job states. -/
def JobInv {α : Type} (j : Job α) : Prop :=
  (j.result.isSome ↔ j.status = .completed) ∧
  (j.error_message.isSome ↔ j.status = .failed) ∧
  j.progress ≤ 100 ∧
  (j.status = .pending → j.progress = 0)

theorem jobInv_of_reachable {α : Type} {j : Job α} (h : Reachable j) : JobInv j := by
  induction h with
  | init => simp [JobInv, initJob]
  | @step jx jy hr hs ih =>
    obtain ⟨ih1, ih2, ih3, ih4⟩ := ih
    cases hs with
    | start p msg hst hp0 hp =>
      have hres : jx.result = none := by
        cases hR : jx.result with
        | none => rfl
        | some v => exact absurd (ih1.mp (by simp [hR])) (by simp [hst])
      have herr : jx.error_message = none := by
        cases hR : jx.error_message with
        | none => rfl
        | some v => exact absurd (ih2.mp (by simp [hR])) (by simp [hst])
      exact ⟨by simp [JobInv, hres], by simp [JobInv, herr], hp, by simp⟩
    | milestone p msg hst hlt hp =>
      exact ⟨ih1, ih2, hp, by simp [hst]⟩
    | complete r msg hst =>
      have herr : jx.error_message = none := by
        cases hR : jx.error_message with
        | none => rfl
        | some v => exact absurd (ih2.mp (by simp [hR])) (by simp [hst])
      exact ⟨by simp, by simp [herr], by simp, by simp⟩
    | fail e hst =>
      have hres : jx.result = none := by
        cases hR : jx.result with
        | none => rfl
        | some v => exact absurd (ih1.mp (by simp [hR])) (by simp [hst])
      exact ⟨by simp [hres], by simp, ih3, by simp⟩

/-- C1: over every reachable job state, the result is populated exactly
when the status is completed, the error message is populated exactly when
the status is failed, and no transition leaves a terminal state. -/
theorem job_result_error_iff_and_terminal_frozen {α : Type} (j : Job α)
    (h : Reachable j) :
    (j.result.isSome ↔ j.status = .completed) ∧
    (j.error_message.isSome ↔ j.status = .failed) ∧
    (∀ j' : Job α, j.status.isTerminal = true → ¬ Step j j') := by
  obtain ⟨i1, i2, _, _⟩ := jobInv_of_reachable h
  refine ⟨i1, i2, ?_⟩
  intro j' hterm hs
  cases hs with
  | start _ _ hst _ _ => rw [hst] at hterm; exact absurd hterm (by decide)
  | milestone _ _ hst _ _ => rw [hst] at hterm; exact absurd hterm (by decide)
  | complete _ _ hst => rw [hst] at hterm; exact absurd hterm (by decide)
  | fail _ hst => rw [hst] at hterm; exact absurd hterm (by decide)

/-- Witness for C1 at the initial job state. -/
theorem job_result_error_iff_witness :
    ((@initJob Unit).result.isSome ↔ (@initJob Unit).status = .completed) ∧
    ((@initJob Unit).error_message.isSome ↔ (@initJob Unit).status = .failed) ∧
    (∀ j' : Job Unit, (@initJob Unit).status.isTerminal = true → ¬ Step (@initJob Unit) j') :=
  job_result_error_iff_and_terminal_frozen (@initJob Unit) Reachable.init

/-- C2: along every transition out of a reachable state the progress
value does not decrease, and a terminal state admits no transition at
all, so the progress observed by polling never changes afterwards. -/
theorem job_progress_monotone_and_frozen {α : Type} (j : Job α) (h : Reachable j) :
    (∀ j' : Job α, Step j j' → j.progress ≤ j'.progress) ∧
    (j.status.isTerminal = true → ∀ j' : Job α, ¬ Step j j') := by
  obtain ⟨_, _, h100, hpend⟩ := jobInv_of_reachable h
  constructor
  · intro j' hs
    cases hs with
    | start p _ hst hp0 hp =>
      have h0 : j.progress = 0 := hpend hst
      rw [h0]
      exact Nat.zero_le p
    | milestone p _ hst hlt hp => exact Nat.le_of_lt hlt
    | complete r _ hst => exact h100
    | fail e hst => exact Nat.le_refl _
  · intro hterm j' hs
    cases hs with
    | start _ _ hst _ _ => rw [hst] at hterm; exact absurd hterm (by decide)
    | milestone _ _ hst _ _ => rw [hst] at hterm; exact absurd hterm (by decide)
    | complete _ _ hst => rw [hst] at hterm; exact absurd hterm (by decide)
    | fail _ hst => rw [hst] at hterm; exact absurd hterm (by decide)

/-- Witness for C2: the start transition from the initial state does not
decrease progress. -/
theorem job_progress_monotone_witness :
    (@initJob Unit).progress ≤ (10 : Nat) :=
  (job_progress_monotone_and_frozen (@initJob Unit) Reachable.init).1
    { @initJob Unit with status := .processing, progress := 10, message := "Starting" }
    (Step.start (@initJob Unit) 10 "Starting" rfl (by decide) (by decide))

end JobM

/-! ## Estimate polling hook (frontend/lib/hooks/useEstimate.ts) -/

namespace PollM

inductive EstStatus where
  | pending
  | processing
  | completed
  | failed
deriving DecidableEq, Repr

structure StatusResponse where
  status : EstStatus
  progress_percentage : Nat
  message : String
deriving DecidableEq, Repr

/-- Result of one estimatesApi.getStatus call as seen by the hook. -/
inductive PollResponse where
  | apiError (msg : String)
  | ok (r : StatusResponse)
deriving DecidableEq, Repr

def POLL_INTERVAL : Nat := 2000

def MAX_POLL_ATTEMPTS : Nat := 30

/-- Hook state: the number of getStatus requests issued so far, the React
pollAttempts state, the error and loading flags, and whether a further
pollStatus invocation is scheduled via setTimeout. -/
structure HookState where
  requestsIssued : Nat
  pollAttempts : Nat
  error : Option String
  loading : Bool
  scheduled : Bool
deriving DecidableEq, Repr

def initHookState : HookState :=
  { requestsIssued := 0, pollAttempts := 0, error := none, loading := true, scheduled := true }

/-- One pollStatus invocation. The captured argument is the pollAttempts
value the invoked closure reads: every invocation in the chain started by
createEstimate is the same function object, created in the render whose
pollAttempts snapshot it closed over, so the guard compares captured
rather than the current pollAttempts state, while setPollAttempts uses a
functional update and does increment the state. -/
def pollInvocation (captured : Nat) (resp : PollResponse) (s : HookState) : HookState :=
  if MAX_POLL_ATTEMPTS ≤ captured then
    { s with error := some "Estimate processing timeout. Please try again."
             loading := false, scheduled := false }
  else
    match resp with
    | .apiError m =>
      { s with requestsIssued := s.requestsIssued + 1, error := some m
               loading := false, scheduled := false }
    | .ok r =>
      if r.status = .completed ∨ r.status = .failed then
        { s with requestsIssued := s.requestsIssued + 1, loading := false, scheduled := false }
      else
        { s with requestsIssued := s.requestsIssued + 1
                 pollAttempts := s.pollAttempts + 1, scheduled := true }

/-- The polling chain: state after n scheduling rounds, where the k-th
issued request observes the k-th server response. -/
def runPolling (responses : Nat → PollResponse) (captured : Nat) : Nat → HookState
  | 0 => initHookState
  | n + 1 =>
    let s := runPolling responses captured n
    if s.scheduled then pollInvocation captured (responses s.requestsIssued) s else s

/-- A server whose status endpoint keeps reporting processing. -/
def alwaysProcessing : Nat → PollResponse :=
  fun _ => .ok { status := .processing, progress_percentage := 50, message := "Generating BOM" }

/-- C3 is refuted on the code: in the chain started with the captured
pollAttempts snapshot 0, the MAX_POLL_ATTEMPTS guard never fires, so
against a server that stays processing the hook has issued n requests
after n rounds for every n — including n far beyond 30 — with no timeout
error surfaced and a further poll still scheduled, because the guard
reads the stale captured snapshot instead of the updated pollAttempts
state. -/
theorem poll_unbounded_requests_without_timeout (n : Nat) :
    (runPolling alwaysProcessing 0 n).requestsIssued = n ∧
    (runPolling alwaysProcessing 0 n).pollAttempts = n ∧
    (runPolling alwaysProcessing 0 n).error = none ∧
    (runPolling alwaysProcessing 0 n).scheduled = true := by
  induction n with
  | zero => exact ⟨rfl, rfl, rfl, rfl⟩
  | succ n ih =>
    obtain ⟨h1, h2, h3, h4⟩ := ih
    simp [runPolling, h4, pollInvocation, alwaysProcessing, MAX_POLL_ATTEMPTS, h1, h2, h3]

/-- Evaluation of the polling chain just past the documented bound: after
31 rounds, 31 requests have been issued and no timeout error is set. -/
theorem poll_exceeds_documented_bound :
    (runPolling alwaysProcessing 0 31).requestsIssued = 31 ∧
    (runPolling alwaysProcessing 0 31).error = none := by
  obtain ⟨h1, _, h3, _⟩ := poll_unbounded_requests_without_timeout 31
  exact ⟨h1, h3⟩

end PollM

/-! ## Payment webhook verifier (app/integrations/midtrans.py, as shown in
the repository documentation) -/

namespace WebhookM

/-- Python verify_signature: concatenate order_id, status_code,
gross_amount and server_key, hash, and compare with the provided
signature. The one-way hash is modelled as an abstract function H on
character lists. -/
def verify_signature (H : List Char → List Char)
    (order_id status_code gross_amount signature server_key : List Char) : Bool :=
  signature == H (((order_id ++ status_code) ++ gross_amount) ++ server_key)

/-- A change of exactly one byte: the two strings agree except at one
position, where they hold different characters. -/
def oneByteDiff (s t : List Char) : Prop :=
  ∃ p a b q, a ≠ b ∧ s = p ++ a :: q ∧ t = p ++ b :: q

theorem oneByteDiff_ne {s t : List Char} (h : oneByteDiff s t) : s ≠ t := by
  obtain ⟨p, a, b, q, hab, hs, ht⟩ := h
  intro he
  rw [hs, ht] at he
  exact hab (List.head_eq_of_cons_eq (List.append_cancel_left he))

theorem oneByteDiff_append_right {s t : List Char} (r : List Char)
    (h : oneByteDiff s t) : oneByteDiff (s ++ r) (t ++ r) := by
  obtain ⟨p, a, b, q, hab, hs, ht⟩ := h
  exact ⟨p, a, b, q ++ r, hab, by simp [hs], by simp [ht]⟩

theorem oneByteDiff_append_left {s t : List Char} (l : List Char)
    (h : oneByteDiff s t) : oneByteDiff (l ++ s) (l ++ t) := by
  obtain ⟨p, a, b, q, hab, hs, ht⟩ := h
  exact ⟨l ++ p, a, b, q, hab, by simp [hs], by simp [ht]⟩

/-- C5: webhook signature verification is a pure function of its five
inputs, and — with the one-way hash modelled as an abstract collision-free
function H — whenever a signature verifies, changing any single byte of
any one input makes verification fail. -/
theorem verify_signature_pure_and_byte_sensitive
    (H : List Char → List Char) (hH : Function.Injective H)
    (o s g sig k : List Char)
    (hv : verify_signature H o s g sig k = true) :
    (∀ o2 s2 g2 sig2 k2, o2 = o → s2 = s → g2 = g → sig2 = sig → k2 = k →
      verify_signature H o2 s2 g2 sig2 k2 = verify_signature H o s g sig k) ∧
    (∀ o2, oneByteDiff o o2 → verify_signature H o2 s g sig k = false) ∧
    (∀ s2, oneByteDiff s s2 → verify_signature H o s2 g sig k = false) ∧
    (∀ g2, oneByteDiff g g2 → verify_signature H o s g2 sig k = false) ∧
    (∀ k2, oneByteDiff k k2 → verify_signature H o s g sig k2 = false) ∧
    (∀ sig2, oneByteDiff sig sig2 → verify_signature H o s g sig2 k = false) := by
  simp only [verify_signature, beq_iff_eq] at hv
  refine ⟨?_, ?_, ?_, ?_, ?_, ?_⟩
  · intro o2 s2 g2 sig2 k2 h1 h2 h3 h4 h5
    subst h1; subst h2; subst h3; subst h4; subst h5; rfl
  · intro o2 hd
    have hraw := oneByteDiff_ne
      (oneByteDiff_append_right k (oneByteDiff_append_right g (oneByteDiff_append_right s hd)))
    simp only [verify_signature, beq_eq_false_iff_ne, ne_eq, hv]
    exact fun he => hraw (hH he)
  · intro s2 hd
    have hraw := oneByteDiff_ne
      (oneByteDiff_append_right k (oneByteDiff_append_right g (oneByteDiff_append_left o hd)))
    simp only [verify_signature, beq_eq_false_iff_ne, ne_eq, hv]
    exact fun he => hraw (hH he)
  · intro g2 hd
    have hraw := oneByteDiff_ne
      (oneByteDiff_append_right k (oneByteDiff_append_left (o ++ s) hd))
    simp only [verify_signature, beq_eq_false_iff_ne, ne_eq, hv]
    exact fun he => hraw (hH he)
  · intro k2 hd
    have hraw := oneByteDiff_ne (oneByteDiff_append_left ((o ++ s) ++ g) hd)
    simp only [verify_signature, beq_eq_false_iff_ne, ne_eq, hv]
    exact fun he => hraw (hH he)
  · intro sig2 hd
    have hne := oneByteDiff_ne hd
    simp only [verify_signature, beq_eq_false_iff_ne, ne_eq]
    intro he
    exact hne (hv.trans he.symm)

/-- Witness for C5: a concrete injective hash and payload where the true
signature verifies and a one-byte change to order_id is rejected. -/
theorem verify_signature_witness :
    verify_signature id ['a'] [] [] ['a'] [] = true ∧
    verify_signature id ['b'] [] [] ['a'] [] = false := by
  refine ⟨by decide, ?_⟩
  exact (verify_signature_pure_and_byte_sensitive id (fun _ _ h => h)
      ['a'] [] [] ['a'] [] (by decide)).2.1
    ['b']
    ⟨[], 'a', 'b', [], by decide, rfl, rfl⟩

end WebhookM
